import Mathlib

/-!
# cf-tool: the self-upgrade command (`cmd/upgrade.go`)

A shallow embedding of `less`, `getLatest`, `upgrade` and `Upgrade` and the
properties of them that the specification states.

Conventions of the embedding

* A Go `string` / `[]byte` is a sequence of bytes; it is represented as a
  `List Char`, one `Char` for one byte.
* A Go function that can panic returns an `Option`; `none` is the panic.
* A Go `error` result is an `Option`; `none` is `nil`.
* The outside world (network, file system, terminal) is explicit: the file
  system is a map from paths to contents, every call that can fail takes its
  outcome from a record of outcomes, and every call is logged in a trace.
-/

namespace CfTool

/-- A Go string: a sequence of bytes. -/
abbrev GoString := List Char

/-! ## `strconv.Atoi` (Go standard library) -/

/-- The two sentinel errors a `strconv.NumError` can wrap. -/
inductive NumErr where
  | ErrSyntax
  | ErrRange
  deriving DecidableEq, Repr

/-- The byte is one of `'0'..'9'`. -/
def isDigit (c : Char) : Bool := decide (48 ≤ c.toNat) && decide (c.toNat ≤ 57)

/-- The digit value `ch - '0'` of a byte. -/
def digitVal (c : Char) : Nat := c.toNat - 48

/-- The fast path loop of `Atoi`: `n = n*10 + int(ch)`, with a syntax error
(`none`) at the first byte that is not a digit.  The fast path is only taken
for fewer than 10 (32-bit) or 19 (64-bit) bytes, so `n` stays below
`10^9 < 2^31`, respectively `10^18 < 2^63`, and never wraps. -/
def atoiFast : Int → GoString → Option Int
  | n, [] => some n
  | n, c :: rest => if isDigit c then atoiFast (n * 10 + digitVal c) rest else none

/-- The constant `maxUint64`. -/
def maxUint64 : Nat := 2 ^ 64 - 1

/-- The loop of `strconv.ParseUint(s, 10, bitSize)` over the bytes of `s`;
`n` is a `uint64`, `maxVal = 1<<bitSize - 1`. -/
def parseUintLoop (maxVal : Nat) : Nat → GoString → Nat × Option NumErr
  | n, [] => (n, none)
  | n, c :: rest =>
    if isDigit c then
      if n ≥ maxUint64 / 10 + 1 then
        -- n*base overflows
        (maxVal, some NumErr.ErrRange)
      else
        let n10 := n * 10 % 2 ^ 64
        let n1 := (n10 + digitVal c) % 2 ^ 64
        if n1 < n10 ∨ n1 > maxVal then
          -- n+d overflows
          (maxVal, some NumErr.ErrRange)
        else parseUintLoop maxVal n1 rest
    else (0, some NumErr.ErrSyntax)

/-- The function `strconv.ParseUint(s, 10, bitSize)` for `bitSize` in `1..64`. -/
def ParseUint (s : GoString) (bitSize : Nat) : Nat × Option NumErr :=
  if s = [] then (0, some NumErr.ErrSyntax)
  else parseUintLoop ((2 ^ bitSize % 2 ^ 64 + 2 ^ 64 - 1) % 2 ^ 64) 0 s

/-- The function `strconv.ParseInt(s, 10, 0)` on a platform whose `int` has
`intSize` bits. -/
def ParseInt (intSize : Nat) (s : GoString) : Int × Option NumErr :=
  match s with
  | [] => (0, some NumErr.ErrSyntax)
  | c :: rest =>
    let neg := decide (c = '-')
    let s1 := if c = '+' ∨ c = '-' then rest else s
    match ParseUint s1 intSize with
    | (_, some NumErr.ErrSyntax) => (0, some NumErr.ErrSyntax)
    | (un, _) =>
      let cutoff : Nat := 2 ^ (intSize - 1)
      if neg = false ∧ un ≥ cutoff then ((cutoff : Int) - 1, some NumErr.ErrRange)
      else if neg = true ∧ un > cutoff then (-(cutoff : Int), some NumErr.ErrRange)
      else (if neg then -(un : Int) else (un : Int), none)

/-- The function `strconv.Atoi` on a platform whose `int` has `intSize` bits
(32 or 64): the value and the error. -/
def Atoi (intSize : Nat) (s : GoString) : Int × Option NumErr :=
  let sLen := s.length
  if (intSize = 32 ∧ 0 < sLen ∧ sLen < 10) ∨ (intSize = 64 ∧ 0 < sLen ∧ sLen < 19) then
    -- Fast path for small integers that fit int type.
    match s with
    | [] => (0, some NumErr.ErrSyntax)
    | c :: rest =>
      let signed := decide (c = '-' ∨ c = '+')
      let s1 := if signed then rest else s
      if signed = true ∧ s1.length < 1 then (0, some NumErr.ErrSyntax)
      else
        match atoiFast 0 s1 with
        | none => (0, some NumErr.ErrSyntax)
        | some n => (if c = '-' then -n else n, none)
  else
    -- Slow path for invalid, big, or underscored integers.
    ParseInt intSize s

/-! ## `regexp`: `(\d+)\.(\d+)\.(\d+)` -/

/-- The rest of a `\d+` once `acc` (at least one digit) is consumed: greedy,
so one more digit is tried first, and the continuation `k` (the rest of the
pattern) is tried on the shorter run only when that fails. -/
def digitsMore {α : Type} (k : GoString → GoString → Option α) :
    GoString → GoString → Option α
  | acc, [] => k acc []
  | acc, c :: rest =>
    if isDigit c then
      match digitsMore k (acc ++ [c]) rest with
      | some r => some r
      | none => k acc (c :: rest)
    else k acc (c :: rest)

/-- The group `(\d+)` at the head of the input followed by the rest of the
pattern `k`, which gets the captured bytes and the remaining input. -/
def digitsPlus {α : Type} (k : GoString → GoString → Option α) : GoString → Option α
  | [] => none
  | c :: rest => if isDigit c then digitsMore k [c] rest else none

/-- The literal `\.` at the head of the input followed by the rest of the
pattern. -/
def litDot {α : Type} (k : GoString → Option α) : GoString → Option α
  | [] => none
  | c :: rest => if c = '.' then k rest else none

/-- A match of `(\d+)\.(\d+)\.(\d+)` that starts at the head of the input:
the whole match and the three groups. -/
def matchHere (s : GoString) : Option (List GoString) :=
  digitsPlus (fun g1 r1 =>
    litDot (fun r2 =>
      digitsPlus (fun g2 r3 =>
        litDot (fun r4 =>
          digitsPlus (fun g3 _ => some [g1 ++ '.' :: g2 ++ '.' :: g3, g1, g2, g3]) r4) r3) r2) r1) s

/-- The function `reg.FindSubmatch`: the leftmost match, as the slice
`[whole, group1, group2, group3]`; the nil slice `[]` when there is none. -/
def FindSubmatch : GoString → List GoString
  | [] => []
  | c :: rest =>
    match matchHere (c :: rest) with
    | some m => m
    | none => FindSubmatch rest

/-! ## `less` -/

/-- The closure `num` of `less`: `n, _ := strconv.Atoi(string(s)); return n`. -/
def num (intSize : Nat) (s : GoString) : Int := (Atoi intSize s).1

/-- The loop `for i := 1; i <= 3; i++` of `less` with `n` rounds to go from
index `i`; indexing a slice out of range panics. -/
def lessLoop (intSize : Nat) (x y : List GoString) : Nat → Nat → Option Bool
  | _, 0 => some false
  | i, n + 1 =>
    match x[i]?, y[i]? with
    | some xi, some yi =>
      if num intSize xi < num intSize yi then some true
      else if num intSize xi > num intSize yi then some false
      else lessLoop intSize x y (i + 1) n
    | _, _ => none

/-- The function `less(a, b)` on a platform whose `int` has `intSize` bits. -/
def less (intSize : Nat) (a b : GoString) : Option Bool :=
  let x := FindSubmatch a
  let y := FindSubmatch b
  lessLoop intSize x y 1 3

/-! ## The outside world -/

/-- A file path, held as what `filepath.Dir` and `filepath.Base` split it
into; `filepath.Join(dir, base)` puts the two together again (`exePath` is
what `filepath.EvalSymlinks` returns, a clean path). -/
structure Path where
  dir : GoString
  base : GoString
  deriving DecidableEq

/-- The contents of a file. -/
abbrev Bytes := List UInt8

/-- The file system: the contents of the file at each path, `none` where
there is no file. -/
abbrev FS := Path → Option Bytes

/-- A call to the outside world. -/
inductive Event where
  | httpGet (url : GoString)
  | yesOrNo
  | executable
  | evalSymlinks (p : Path)
  | rename (src dst : Path)
  | remove (p : Path)
  | openFile (p : Path)
  | copy (p : Path)
  deriving DecidableEq

/-- The errors of the upgrade command, by the call that returns them. -/
inductive Err where
  | notSupport (v : GoString)
  | httpGet (url : GoString)
  | readAll
  | gzipHeader
  | EOF
  | tarHeader
  | rename (src dst : Path)
  | remove (p : Path)
  | openFile (p : Path)
  | copy (p : Path)
  | executable
  | evalSymlinks
  deriving DecidableEq

/-- The state of the outside world: the file system and the calls made so
far, oldest first. -/
structure World where
  fs : FS
  trace : List Event

/-- Log a call. -/
def World.log (w : World) (e : Event) : World := { w with trace := w.trace ++ [e] }

/-- The call `os.Rename(src, dst)`: fails when there is no file at `src` or
when the outcome `ok` says so; otherwise the file moves to `dst`, replacing
what was there. -/
def osRename (ok : Bool) (src dst : Path) (w : World) : World × Option Err :=
  let w1 := w.log (Event.rename src dst)
  match w.fs src with
  | none => (w1, some (Err.rename src dst))
  | some c =>
    if ok then
      ({ w1 with fs := fun p => if p = dst then some c else if p = src then none else w.fs p },
        none)
    else (w1, some (Err.rename src dst))

/-- The call `os.Remove(p)`: fails when there is no file at `p` or when the
outcome `ok` says so. -/
def osRemove (ok : Bool) (p : Path) (w : World) : World × Option Err :=
  let w1 := w.log (Event.remove p)
  match w.fs p with
  | none => (w1, some (Err.remove p))
  | some _ =>
    if ok then ({ w1 with fs := fun q => if q = p then none else w.fs q }, none)
    else (w1, some (Err.remove p))

/-- The call `os.OpenFile(p, os.O_CREATE|os.O_WRONLY, 0755)`: creates an
empty file when there is none; a file that is there keeps its contents (no
`O_TRUNC`). -/
def osOpenFile (ok : Bool) (p : Path) (w : World) : World × Option Err :=
  let w1 := w.log (Event.openFile p)
  if ok then
    match w.fs p with
    | none => ({ w1 with fs := fun q => if q = p then some [] else w.fs q }, none)
    | some _ => (w1, none)
  else (w1, some (Err.openFile p))

/-- Writing `data` from offset 0 into a file that holds `old`. -/
def overwrite (data old : Bytes) : Bytes := data ++ old.drop data.length

/-- The call `io.Copy(fw, tr)` into the file just opened at `p`: with outcome
`none` all of `data` is written; with outcome `some k` the read or the write
fails once `k` bytes (at most all of them) are written. -/
def ioCopy (outcome : Option Nat) (p : Path) (data : Bytes) (w : World) : World × Option Err :=
  let w1 := w.log (Event.copy p)
  let old := (w.fs p).getD []
  match outcome with
  | none => ({ w1 with fs := fun q => if q = p then some (overwrite data old) else w.fs q }, none)
  | some k =>
    ({ w1 with fs := fun q => if q = p then some (overwrite (data.take k) old) else w.fs q },
      some (Err.copy p))

/-! ## `getLatest` -/

/-- An element of the `assets` array of the release metadata:
`browser_download_url` when it is a string, `size` when it is a number (as
`uint(...)` converts it). -/
structure Asset where
  browser_download_url : Option GoString
  size : Option Nat
  deriving DecidableEq

/-- The map `result` that `json.Unmarshal` fills: each field read by
`getLatest`, `none` when the key is missing or holds another type (all of
them when the body does not parse, as the error of `Unmarshal` is dropped). -/
structure Release where
  tag_name : Option GoString
  body : Option GoString
  published_at : Option GoString
  assets : List Asset

/-- The outcome of `http.Get` on the metadata endpoint and of reading the
response. -/
inductive Metadata where
  | getError
  | readError
  | body (r : Release)

/-- The results of `getLatest`. -/
structure Latest where
  version : GoString
  note : GoString
  ptime : GoString
  url : GoString
  size : Nat
  err : Option Err
  deriving DecidableEq

/-- The results of `getLatest` before any is assigned, with `err`. -/
def Latest.zero (err : Option Err) : Latest := ⟨[], [], [], [], 0, err⟩

/-- The `switch runtime.GOOS`; `none` is the `default` case. -/
def switchGOOS (GOOS : GoString) : Option GoString :=
  if GOOS = "darwin".toList then some "darwin".toList
  else if GOOS = "linux".toList then some "linux".toList
  else if GOOS = "windows".toList then some "windows".toList
  else none

/-- The `switch runtime.GOARCH`; `none` is the `default` case. -/
def switchGOARCH (GOARCH : GoString) : Option GoString :=
  if GOARCH = "386".toList then some "386".toList
  else if GOARCH = "amd64".toList then some "amd64".toList
  else if GOARCH = "arm64".toList then some "arm64".toList
  else none

/-- The metadata endpoint. -/
def apiURL : GoString := "https://api.github.com/repos/Dup4/cf-tool/releases/latest".toList

/-- The loop over `assets`: the size of the first asset whose
`browser_download_url` is `url` (a panic when that asset's `size` is not a
number), `size` when there is none. -/
def assetSize (url : GoString) (size : Nat) : List Asset → Option Nat
  | [] => some size
  | a :: rest => if a.browser_download_url = some url then a.size else assetSize url size rest

/-- The function `getLatest`, on a platform with the given `runtime.GOOS` and
`runtime.GOARCH`; `formatTime` renders `published_at` in local time. -/
def getLatest (GOOS GOARCH : GoString) (metadata : Metadata)
    (formatTime : GoString → GoString) (w : World) : Option (World × Latest) :=
  match switchGOOS GOOS with
  | none => some (w, Latest.zero (some (Err.notSupport GOOS)))
  | some goos =>
    match switchGOARCH GOARCH with
    | none => some (w, Latest.zero (some (Err.notSupport GOARCH)))
    | some arch =>
      let w1 := w.log (Event.httpGet apiURL)
      match metadata with
      | Metadata.getError => some (w1, Latest.zero (some (Err.httpGet apiURL)))
      | Metadata.readError => some (w1, Latest.zero (some Err.readAll))
      | Metadata.body result =>
        match result.tag_name, result.body, result.published_at with
        | some version, some note, some published =>
          match version with
          | [] => none
          | _ :: version1 =>
            let url := "https://github.com/Dup4/cf-tool/releases/download/".toList ++ version ++
              "/cf-tool_".toList ++ version1 ++ "_".toList ++ goos ++ "_".toList ++ arch ++
              ".tar.gz".toList
            match assetSize url 0 result.assets with
            | none => none
            | some size => some (w1, ⟨version, note, formatTime published, url, size, none⟩)
        | _, _, _ => none

/-! ## `upgrade` -/

/-- An entry of the tar stream: `hdr.FileInfo().Name()` and the contents. -/
structure Entry where
  name : GoString
  content : Bytes
  deriving DecidableEq

/-- The outcome of `http.Get(url)`, of reading the response and of opening
it as a gzip-compressed tar stream: the entries `tr.Next()` yields in order
and the error it ends with (`io.EOF` when the archive is well framed). -/
inductive Download where
  | getError
  | readError
  | gzipError
  | archive (entries : List Entry) (ending : Err)

/-- The outcome of every call of `upgrade` that can fail. -/
structure Outcomes where
  /-- the call `os.Rename(exePath, oldPath)` -/
  backupRename : Bool
  /-- the calls from `http.Get(url)` to `tar.NewReader(gr)` -/
  download : Download
  /-- the call `os.OpenFile(newPath, ...)` -/
  openStaging : Bool
  /-- the call `io.Copy(fw, tr)` -/
  copy : Option Nat
  /-- the call `os.Rename(newPath, exePath)` -/
  commitRename : Bool
  /-- the call `os.Remove(newPath)` -/
  removeStaging : Bool
  /-- the deferred `os.Rename(oldPath, exePath)` -/
  rollbackRename : Bool
  /-- the deferred `os.Remove(oldPath)` -/
  removeBackup : Bool

/-- The function `strings.HasPrefix`. -/
def HasPrefix (s pre : GoString) : Bool := pre.isPrefixOf s

/-- The path `oldPath` of `upgrade`: `.<base>.old` beside the executable. -/
def oldPath (exePath : Path) : Path := ⟨exePath.dir, '.' :: exePath.base ++ ".old".toList⟩

/-- The path `newPath` of `upgrade`: `.<base>.new` beside the executable. -/
def newPath (exePath : Path) : Path := ⟨exePath.dir, '.' :: exePath.base ++ ".new".toList⟩

/-- The loop over `tr.Next()`: the first entry whose name starts with `cf`
(the reader is then left at that entry); `none` when the stream ends first. -/
def findExecutable : List Entry → Option Entry
  | [] => none
  | e :: rest => if HasPrefix e.name "cf".toList then some e else findExecutable rest

/-- The body of `upgrade` after the deferred function is set up: the download,
the search of the archive, the staging file and the rename onto `exePath`. -/
def upgradeBody (o : Outcomes) (url : GoString) (exePath : Path) (w : World) :
    World × Option Err :=
  let w1 := w.log (Event.httpGet url)
  match o.download with
  | Download.getError => (w1, some (Err.httpGet url))
  | Download.readError => (w1, some Err.readAll)
  | Download.gzipError => (w1, some Err.gzipHeader)
  | Download.archive entries ending =>
    match findExecutable entries with
    | none => (w1, some ending)
    | some entry =>
      match osOpenFile o.openStaging (newPath exePath) w1 with
      | (w2, some e) => (w2, some e)
      | (w2, none) =>
        match ioCopy o.copy (newPath exePath) entry.content w2 with
        | (w3, some e) => (w3, some e)
        | (w3, none) =>
          match osRename o.commitRename (newPath exePath) exePath w3 with
          | (w4, some e) => ((osRemove o.removeStaging (newPath exePath) w4).1, some e)
          | (w4, none) => (w4, none)

/-- The deferred function of `upgrade`, run when `upgrade` returns `err`:
the old executable is renamed back when `err != nil` and removed otherwise;
an error of either call is printed, not returned. -/
def upgradeDeferred (o : Outcomes) (exePath : Path) (err : Option Err) (w : World) : World :=
  match err with
  | some _ => (osRename o.rollbackRename (oldPath exePath) exePath w).1
  | none => (osRemove o.removeBackup (oldPath exePath) w).1

/-- The function `upgrade(url, exePath, size)`: the world when it returns and
the error it returns.  `size` only feeds the progress display. -/
def upgrade (o : Outcomes) (url : GoString) (exePath : Path) (_size : Nat) (w : World) :
    World × Option Err :=
  match osRename o.backupRename exePath (oldPath exePath) w with
  | (w1, some e) => (w1, some e)
  | (w1, none) =>
    let r := upgradeBody o url exePath w1
    (upgradeDeferred o exePath r.2 r.1, r.2)

/-! ## `Upgrade` -/

/-- Everything `Upgrade` reads from outside. -/
structure Env where
  /-- the size of `int` on the platform -/
  intSize : Nat
  GOOS : GoString
  GOARCH : GoString
  /-- the value of `Args.Version` -/
  version : GoString
  metadata : Metadata
  formatTime : GoString → GoString
  /-- the answer `util.YesOrNo` returns; the call shows the prompt and reads
  the answer -/
  answer : Bool
  /-- the result of `os.Executable()` -/
  executable : Option Path
  /-- the function `filepath.EvalSymlinks` -/
  evalSymlinks : Path → Option Path
  outcomes : Outcomes

/-- The function `Upgrade`: the world when it returns and the error it
returns; `none` when it panics. -/
def Upgrade (env : Env) (w : World) : Option (World × Option Err) :=
  match getLatest env.GOOS env.GOARCH env.metadata env.formatTime w with
  | none => none
  | some (w1, r) =>
    match r.err with
    | some e => some (w1, some e)
    | none =>
      match less env.intSize env.version r.version with
      | none => none
      | some false => some (w1, none)
      | some true =>
        let w2 := w1.log Event.yesOrNo
        if env.answer = false then some (w2, none)
        else
          let w3 := w2.log Event.executable
          match env.executable with
          | none => some (w3, some Err.executable)
          | some exePath0 =>
            let w4 := w3.log (Event.evalSymlinks exePath0)
            match env.evalSymlinks exePath0 with
            | none => some (w4, some Err.evalSymlinks)
            | some exePath =>
              some (upgrade env.outcomes r.url exePath r.size w4)

/-! ## Specification-side notions for `upgrade` -/

/-- The new executable: the contents of the first entry of the downloaded
archive whose name starts with `cf`, when the download gives one. -/
def newExecutable (o : Outcomes) : Option Bytes :=
  match o.download with
  | Download.archive entries _ => (findExecutable entries).map Entry.content
  | _ => none

/-- The run in which every call succeeds, for a given download. -/
def allSucceed (d : Download) : Outcomes := ⟨true, d, true, none, true, true, true, true⟩

/-- An executable path for the examples. -/
def exampleExe : Path := ⟨"/usr/local/bin".toList, "cf".toList⟩

/-- A world for the examples: the executable holds `1 2 3`, no other file
exists, and no call has been made. -/
def exampleWorld : World := ⟨fun p => if p = exampleExe then some [1, 2, 3] else none, []⟩

/-- The world of the examples with a file `5 5 5 5 5` left at the staging path. -/
def exampleWorldStale : World :=
  ⟨fun p => if p = exampleExe then some [1, 2, 3]
    else if p = newPath exampleExe then some [5, 5, 5, 5, 5] else none, []⟩

/-- A well-framed archive for the examples: the new executable holds `7 8`. -/
def exampleArchive : Download :=
  Download.archive [⟨"README.md".toList, [9]⟩, ⟨"cf".toList, [7, 8]⟩, ⟨"cf.1".toList, [6]⟩] Err.EOF

/-- A well-framed archive for the examples with no executable in it. -/
def exampleArchiveNoExe : Download :=
  Download.archive [⟨"README.md".toList, [9]⟩, ⟨"LICENSE".toList, [4]⟩] Err.EOF

/-- A download URL for the examples. -/
def exampleURL : GoString :=
  "https://github.com/Dup4/cf-tool/releases/download/v1.0.0/cf-tool_1.0.0_linux_amd64.tar.gz".toList

/-! ## Specification-side notions for `getLatest` and `Upgrade` -/

/-- The operating systems of the release-naming scheme. -/
def supportedOS : List GoString := ["darwin".toList, "linux".toList, "windows".toList]

/-- The architectures of the release-naming scheme. -/
def supportedArch : List GoString := ["386".toList, "amd64".toList, "arm64".toList]

/-- The tag with its `v` prefix removed. -/
def withoutV (tag : GoString) : GoString :=
  if tag.head? = some 'v' then tag.tail else tag

/-- The download URL as the specification gives it:
`<release-base>/<tag>/cf-tool_<version-no-v-prefix>_<os>_<arch>.tar.gz`. -/
def specURL (tag os arch : GoString) : GoString :=
  "https://github.com/Dup4/cf-tool/releases/download/".toList ++ tag ++ "/cf-tool_".toList ++
    withoutV tag ++ "_".toList ++ os ++ "_".toList ++ arch ++ ".tar.gz".toList

/-- Release metadata for the examples, with the given tag and assets. -/
def exampleRelease (tag : GoString) (assets : List Asset) : Metadata :=
  Metadata.body ⟨some tag, some "notes".toList, some "2021-01-01T00:00:00Z".toList, assets⟩

/-- An environment for the examples: linux/amd64, 64-bit `int`, the given
current version, release tag and answer, every call succeeding. -/
def exampleEnv (version tag : GoString) (answer : Bool) : Env :=
  { intSize := 64, GOOS := "linux".toList, GOARCH := "amd64".toList, version := version,
    metadata := exampleRelease tag [], formatTime := id, answer := answer,
    executable := some exampleExe, evalSymlinks := some,
    outcomes := allSucceed exampleArchive }

/-! ## Specification-side notions for `less` -/

/-- The number a string of decimal digits denotes. -/
def decVal (s : GoString) : Nat := s.foldl (fun n c => n * 10 + digitVal c) 0

/-- A non-negative integer written in decimal. -/
def decimal (n : Nat) : GoString := (toString n).toList

/-- The version string `"v" + a1.a2.a3` of a triple. -/
def versionString (a : Nat × Nat × Nat) : GoString :=
  'v' :: (decimal a.1 ++ '.' :: (decimal a.2.1 ++ '.' :: decimal a.2.2))

/-- Strict lexicographic order on triples. -/
def lexLt {α : Type} [LT α] (a b : α × α × α) : Prop :=
  a.1 < b.1 ∨ (a.1 = b.1 ∧ (a.2.1 < b.2.1 ∨ (a.2.1 = b.2.1 ∧ a.2.2 < b.2.2)))

instance {α : Type} [LT α] [DecidableEq α] [DecidableRel (fun (x y : α) => x < y)]
    (a b : α × α × α) : Decidable (lexLt a b) := by
  unfold lexLt; infer_instance

/-- The largest value of an `int` of `intSize` bits. -/
def maxInt (intSize : Nat) : Int := 2 ^ (intSize - 1) - 1

/-- What a matched group counts as in `less`: its value when that fits an
`int`, the largest `int` otherwise. -/
def groupValue (intSize : Nat) (g : GoString) : Int :=
  if (decVal g : Int) ≤ maxInt intSize then (decVal g : Int) else maxInt intSize

/-- The input does not go on with a digit. -/
def noDigitAhead (s : GoString) : Prop := ∀ c ∈ s.head?, isDigit c = false

/-- A run of digits: not empty, digits only. -/
def digitRun (g : GoString) : Prop := g ≠ [] ∧ ∀ c ∈ g, isDigit c = true

/-- Every component of the triple fits an `int` of `intSize` bits. -/
def fitsInt (intSize : Nat) (a : Nat × Nat × Nat) : Prop :=
  (a.1 : Int) ≤ maxInt intSize ∧ (a.2.1 : Int) ≤ maxInt intSize ∧ (a.2.2 : Int) ≤ maxInt intSize

/-! # Properties -/

/-! ## Lemmas: decimal digits -/

theorem isDigit_digitChar (m : Nat) (h : m < 10) :
    isDigit (Nat.digitChar m) = true ∧ digitVal (Nat.digitChar m) = m := by
  interval_cases m <;> exact ⟨by decide, by decide⟩

theorem digitVal_le (c : Char) (h : isDigit c = true) : digitVal c ≤ 9 := by
  simp only [isDigit, Bool.and_eq_true, decide_eq_true_eq] at h
  unfold digitVal; omega

theorem decVal_append_singleton (s : GoString) (c : Char) :
    decVal (s ++ [c]) = decVal s * 10 + digitVal c := by
  simp [decVal, List.foldl_append]

theorem toDigitsCore_spec (fuel : Nat) : ∀ (n : Nat) (ds : List Char), n < fuel →
    ∃ pre, Nat.toDigitsCore 10 fuel n ds = pre ++ ds ∧ pre ≠ [] ∧
      (∀ c ∈ pre, isDigit c = true) ∧ decVal pre = n := by
  induction fuel with
  | zero => intro n ds h; omega
  | succ fuel ih =>
    intro n ds h
    have hd := isDigit_digitChar (n % 10) (Nat.mod_lt _ (by decide))
    by_cases h0 : n / 10 = 0
    · refine ⟨[Nat.digitChar (n % 10)], ?_, by simp, ?_, ?_⟩
      · simp [Nat.toDigitsCore, h0]
      · intro c hc
        simp only [List.mem_singleton] at hc
        rw [hc]; exact hd.1
      · have : decVal [Nat.digitChar (n % 10)] = digitVal (Nat.digitChar (n % 10)) := by
          simp [decVal]
        rw [this, hd.2]; omega
    · obtain ⟨pre, hpre, _, hdig, hval⟩ :=
        ih (n / 10) (Nat.digitChar (n % 10) :: ds) (by omega)
      refine ⟨pre ++ [Nat.digitChar (n % 10)], ?_, by simp, ?_, ?_⟩
      · simp [Nat.toDigitsCore, h0, hpre]
      · intro c hc
        rcases List.mem_append.1 hc with hc | hc
        · exact hdig c hc
        · simp only [List.mem_singleton] at hc
          rw [hc]; exact hd.1
      · rw [decVal_append_singleton, hval, hd.2]; omega

theorem decimal_spec (n : Nat) :
    decimal n ≠ [] ∧ (∀ c ∈ decimal n, isDigit c = true) ∧ decVal (decimal n) = n := by
  obtain ⟨pre, hpre, hne, hdig, hval⟩ := toDigitsCore_spec (n + 1) n [] (by omega)
  have : decimal n = pre := by
    simp [decimal, toString, Nat.repr, Nat.toDigits, hpre, List.asString]
  rw [this]; exact ⟨hne, hdig, hval⟩

/-! ## Lemmas: `strconv.Atoi` on a string of digits -/

theorem foldl_digits_ge (s : GoString) : ∀ n : Nat,
    n ≤ s.foldl (fun n c => n * 10 + digitVal c) n := by
  induction s with
  | nil => intro n; simp
  | cons c rest ih =>
    intro n
    simp only [List.foldl_cons]
    exact le_trans (by omega) (ih (n * 10 + digitVal c))

theorem foldl_digits_eq (s : GoString) : ∀ n : Nat,
    s.foldl (fun n c => n * 10 + digitVal c) n = n * 10 ^ s.length + decVal s := by
  induction s with
  | nil => intro n; simp [decVal]
  | cons c rest ih =>
    intro n
    have h0 := ih (0 * 10 + digitVal c)
    simp only [decVal, List.foldl_cons, List.length_cons] at h0 ⊢
    rw [ih (n * 10 + digitVal c), h0]
    simp only [decVal]
    ring

theorem decVal_lt (s : GoString) (hd : ∀ c ∈ s, isDigit c = true) :
    decVal s < 10 ^ s.length := by
  induction s using List.reverseRecOn with
  | nil => simp [decVal]
  | append_singleton s c ih =>
    have hc := digitVal_le c (hd c (by simp))
    have hs := ih (fun x hx => hd x (by simp [hx]))
    rw [decVal_append_singleton, List.length_append, List.length_singleton, pow_succ]
    omega

theorem atoiFast_digits (s : GoString) : ∀ n : Nat, (∀ c ∈ s, isDigit c = true) →
    atoiFast (n : Int) s = some ((s.foldl (fun n c => n * 10 + digitVal c) n : Nat) : Int) := by
  induction s with
  | nil => intro n _; simp [atoiFast]
  | cons c rest ih =>
    intro n hd
    have hc : isDigit c = true := hd c (by simp)
    have := ih (n * 10 + digitVal c) (fun x hx => hd x (by simp [hx]))
    simp only [atoiFast, hc, if_true, List.foldl_cons]
    rw [← this]; push_cast; rfl

theorem parseUintLoop_digits (M : Nat) (hM : M < 2 ^ 64) (s : GoString) : ∀ n : Nat, n ≤ M →
    (∀ c ∈ s, isDigit c = true) →
    parseUintLoop M n s =
      if s.foldl (fun n c => n * 10 + digitVal c) n ≤ M
      then (s.foldl (fun n c => n * 10 + digitVal c) n, none)
      else (M, some NumErr.ErrRange) := by
  have e64 : (2 : Nat) ^ 64 = 18446744073709551616 := by norm_num
  rw [e64] at hM
  induction s with
  | nil => intro n hn _; simp [parseUintLoop, hn]
  | cons c rest ih =>
    intro n hn hd
    have hc : isDigit c = true := hd c (by simp)
    have hrest : ∀ x ∈ rest, isDigit x = true := fun x hx => hd x (by simp [hx])
    have hd9 := digitVal_le c hc
    have hge := foldl_digits_ge rest (n * 10 + digitVal c)
    simp only [parseUintLoop, hc, if_true, List.foldl_cons, maxUint64, e64]
    by_cases h1 : n ≥ (18446744073709551616 - 1) / 10 + 1
    · rw [if_pos h1, if_neg (by omega)]
    · rw [if_neg h1]
      have e10 : n * 10 % 18446744073709551616 = n * 10 := Nat.mod_eq_of_lt (by omega)
      simp only [e10]
      by_cases h2 : n * 10 + digitVal c < 18446744073709551616
      · have e1 : (n * 10 + digitVal c) % 18446744073709551616 = n * 10 + digitVal c :=
          Nat.mod_eq_of_lt h2
        simp only [e1]
        by_cases h3 : n * 10 + digitVal c > M
        · rw [if_pos (Or.inr h3), if_neg (by omega)]
        · rw [if_neg (by omega)]
          exact ih (n * 10 + digitVal c) (by omega) hrest
      · rw [if_pos (Or.inl (by omega)), if_neg (by omega)]

theorem ParseInt_digits (intSize : Nat) (hw : intSize = 32 ∨ intSize = 64) (s : GoString)
    (hne : s ≠ []) (hd : ∀ c ∈ s, isDigit c = true) :
    ParseInt intSize s =
      if (decVal s : Int) ≤ maxInt intSize then ((decVal s : Int), none)
      else (maxInt intSize, some NumErr.ErrRange) := by
  obtain ⟨c, rest, rfl⟩ := List.exists_cons_of_ne_nil hne
  have hc : isDigit c = true := hd c (by simp)
  have hminus : c ≠ '-' := by rintro rfl; exact absurd hc (by decide)
  have hplus : c ≠ '+' := by rintro rfl; exact absurd hc (by decide)
  have hfold := foldl_digits_eq (c :: rest) 0
  simp only [Nat.zero_mul, Nat.zero_add] at hfold
  have hloop : ∀ M, M < 2 ^ 64 → parseUintLoop M 0 (c :: rest) =
      if decVal (c :: rest) ≤ M then (decVal (c :: rest), none)
      else (M, some NumErr.ErrRange) := by
    intro M hM
    have := parseUintLoop_digits M hM (c :: rest) 0 (Nat.zero_le _) hd
    rw [hfold] at this; exact this
  generalize decVal (c :: rest) = v at hloop ⊢
  rcases hw with rfl | rfl
  · have hl := hloop (2 ^ 32 - 1) (by norm_num)
    have hM : (2 ^ 32 % 2 ^ 64 + 2 ^ 64 - 1) % 2 ^ 64 = 2 ^ 32 - 1 := by norm_num
    simp only [ParseInt, ParseUint, hminus, hplus, or_self, if_false, hM, hl, maxInt,
      List.cons_ne_nil]
    norm_num
    split_ifs <;> dsimp only <;> split_ifs <;> first | rfl | (exfalso; omega)
  · have hl := hloop (2 ^ 64 - 1) (by norm_num)
    have hM : (2 ^ 64 % 2 ^ 64 + 2 ^ 64 - 1) % 2 ^ 64 = 2 ^ 64 - 1 := by norm_num
    simp only [ParseInt, ParseUint, hminus, hplus, or_self, if_false, hM, hl, maxInt,
      List.cons_ne_nil]
    norm_num
    split_ifs <;> dsimp only <;> split_ifs <;> first | rfl | (exfalso; omega)

theorem Atoi_digits (intSize : Nat) (hw : intSize = 32 ∨ intSize = 64) (s : GoString)
    (hne : s ≠ []) (hd : ∀ c ∈ s, isDigit c = true) :
    Atoi intSize s =
      if (decVal s : Int) ≤ maxInt intSize then ((decVal s : Int), none)
      else (maxInt intSize, some NumErr.ErrRange) := by
  unfold Atoi
  by_cases hfp : (intSize = 32 ∧ 0 < s.length ∧ s.length < 10) ∨
      (intSize = 64 ∧ 0 < s.length ∧ s.length < 19)
  · simp only [hfp, if_true]
    obtain ⟨c, rest, rfl⟩ := List.exists_cons_of_ne_nil hne
    have hc : isDigit c = true := hd c (by simp)
    have hminus : c ≠ '-' := by rintro rfl; exact absurd hc (by decide)
    have hplus : c ≠ '+' := by rintro rfl; exact absurd hc (by decide)
    have hlt := decVal_lt (c :: rest) hd
    have hfold := foldl_digits_eq (c :: rest) 0
    have hfast := atoiFast_digits (c :: rest) 0 hd
    simp only [Nat.zero_mul, Nat.zero_add, Nat.cast_zero] at hfold hfast
    rw [hfold] at hfast
    have hle : (decVal (c :: rest) : Int) ≤ maxInt intSize := by
      rcases hfp with ⟨rfl, _, hl⟩ | ⟨rfl, _, hl⟩
      · have : 10 ^ (c :: rest).length ≤ 10 ^ 9 := Nat.pow_le_pow_right (by decide) (by omega)
        have h9 : decVal (c :: rest) < 10 ^ 9 := lt_of_lt_of_le hlt this
        simp only [maxInt]; norm_num at h9 ⊢; omega
      · have : 10 ^ (c :: rest).length ≤ 10 ^ 18 := Nat.pow_le_pow_right (by decide) (by omega)
        have h18 : decVal (c :: rest) < 10 ^ 18 := lt_of_lt_of_le hlt this
        simp only [maxInt]; norm_num at h18 ⊢; omega
    simp [hminus, hplus, hfast, hle]
  · simp only [hfp, if_false]
    exact ParseInt_digits intSize hw s hne hd

theorem num_digits (intSize : Nat) (hw : intSize = 32 ∨ intSize = 64) (s : GoString)
    (hne : s ≠ []) (hd : ∀ c ∈ s, isDigit c = true) :
    num intSize s = groupValue intSize s := by
  unfold num groupValue
  rw [Atoi_digits intSize hw s hne hd]
  split_ifs <;> rfl

/-! ## Lemmas: the regular expression -/

theorem digitsMore_eq {α : Type} (k : GoString → GoString → Option α)
    (hk : ∀ a c r, isDigit c = true → (∃ a1 r1, k a1 r1 = none) → k a (c :: r) = none) :
    ∀ (s acc : GoString),
      digitsMore k acc s = k (acc ++ s.takeWhile isDigit) (s.dropWhile isDigit) := by
  intro s
  induction s with
  | nil => intro acc; simp [digitsMore]
  | cons c rest ih =>
    intro acc
    by_cases hc : isDigit c = true
    · simp only [digitsMore, hc, if_true, List.takeWhile_cons, List.dropWhile_cons]
      rw [ih (acc ++ [c]), List.append_assoc, List.singleton_append]
      cases h : k (acc ++ c :: rest.takeWhile isDigit) (rest.dropWhile isDigit) with
      | some r => rfl
      | none => exact hk acc c rest hc ⟨_, _, h⟩
    · simp [digitsMore, hc]

theorem digitsPlus_eq {α : Type} (k : GoString → GoString → Option α)
    (hk : ∀ a c r, isDigit c = true → (∃ a1 r1, k a1 r1 = none) → k a (c :: r) = none)
    (s : GoString) :
    digitsPlus k s =
      if s.takeWhile isDigit = [] then none
      else k (s.takeWhile isDigit) (s.dropWhile isDigit) := by
  cases s with
  | nil => simp [digitsPlus]
  | cons c rest =>
    by_cases hc : isDigit c = true
    · simp [digitsPlus, hc, digitsMore_eq k hk]
    · simp [digitsPlus, hc]

theorem litDot_digit {α : Type} (k : GoString → Option α) (c : Char) (r : GoString)
    (hc : isDigit c = true) : litDot k (c :: r) = none := by
  have : c ≠ '.' := by rintro rfl; exact absurd hc (by decide)
  simp [litDot, this]

theorem litDot_dot {α : Type} (k : GoString → Option α) (r : GoString) :
    litDot k ('.' :: r) = k r := by
  simp [litDot]

theorem takeWhile_digits_append (g rest : GoString) (hg : ∀ c ∈ g, isDigit c = true)
    (hr : noDigitAhead rest) :
    (g ++ rest).takeWhile isDigit = g ∧ (g ++ rest).dropWhile isDigit = rest := by
  induction g with
  | nil =>
    cases rest with
    | nil => simp
    | cons c r =>
      have : isDigit c = false := hr c (by simp)
      simp [List.takeWhile_cons, List.dropWhile_cons, this]
  | cons c g ih =>
    have hc : isDigit c = true := hg c (by simp)
    have := ih (fun x hx => hg x (by simp [hx]))
    simp [List.takeWhile_cons, List.dropWhile_cons, hc, this]

theorem matchHere_of_shape (g1 g2 g3 post : GoString)
    (h1 : g1 ≠ [] ∧ ∀ c ∈ g1, isDigit c = true) (h2 : g2 ≠ [] ∧ ∀ c ∈ g2, isDigit c = true)
    (h3 : g3 ≠ [] ∧ ∀ c ∈ g3, isDigit c = true) (hp : noDigitAhead post) :
    matchHere (g1 ++ '.' :: (g2 ++ '.' :: (g3 ++ post))) =
      some [g1 ++ '.' :: g2 ++ '.' :: g3, g1, g2, g3] := by
  have hdot : ∀ r, noDigitAhead ('.' :: r) := by
    intro r c hc
    simp only [List.head?_cons, Option.mem_def, Option.some.injEq] at hc
    subst hc; decide
  obtain ⟨t1, d1⟩ := takeWhile_digits_append g1 _ h1.2 (hdot (g2 ++ '.' :: (g3 ++ post)))
  obtain ⟨t2, d2⟩ := takeWhile_digits_append g2 _ h2.2 (hdot (g3 ++ post))
  obtain ⟨t3, d3⟩ := takeWhile_digits_append g3 _ h3.2 hp
  unfold matchHere
  rw [digitsPlus_eq _ (fun a c r hc _ => litDot_digit _ c r hc), t1, d1, if_neg h1.1,
    litDot_dot,
    digitsPlus_eq _ (fun a c r hc _ => litDot_digit _ c r hc), t2, d2, if_neg h2.1,
    litDot_dot,
    digitsPlus_eq _ (fun a c r hc h => by simp at h), t3, if_neg h3.1]

theorem takeWhile_digitRun (s : GoString) (h : s.takeWhile isDigit ≠ []) :
    digitRun (s.takeWhile isDigit) :=
  ⟨h, fun _ hc => List.mem_takeWhile_imp hc⟩

theorem litDot_some {α : Type} (k : GoString → Option α) (s : GoString) (m : α)
    (h : litDot k s = some m) : ∃ r, s = '.' :: r ∧ k r = some m := by
  cases s with
  | nil => simp [litDot] at h
  | cons c r =>
    by_cases hc : c = '.'
    · subst hc
      simp only [litDot, if_true] at h
      exact ⟨r, rfl, h⟩
    · simp [litDot, hc] at h

theorem matchHere_groups (s : GoString) (m : List GoString) (h : matchHere s = some m) :
    ∃ w g1 g2 g3, m = [w, g1, g2, g3] ∧ digitRun g1 ∧ digitRun g2 ∧ digitRun g3 := by
  unfold matchHere at h
  rw [digitsPlus_eq _ (fun a c r hc _ => litDot_digit _ c r hc)] at h
  split_ifs at h with e1
  obtain ⟨r2, _, h⟩ := litDot_some _ _ _ h
  rw [digitsPlus_eq _ (fun a c r hc _ => litDot_digit _ c r hc)] at h
  split_ifs at h with e2
  obtain ⟨r4, _, h⟩ := litDot_some _ _ _ h
  rw [digitsPlus_eq _ (fun a c r hc h => by simp at h)] at h
  split_ifs at h with e3
  simp only [Option.some.injEq] at h
  exact ⟨_, _, _, _, h.symm, takeWhile_digitRun _ e1, takeWhile_digitRun _ e2,
    takeWhile_digitRun _ e3⟩

theorem FindSubmatch_groups (s : GoString) :
    FindSubmatch s = [] ∨
      ∃ w g1 g2 g3, FindSubmatch s = [w, g1, g2, g3] ∧
        digitRun g1 ∧ digitRun g2 ∧ digitRun g3 := by
  induction s with
  | nil => left; rfl
  | cons c rest ih =>
    cases h : matchHere (c :: rest) with
    | none => simpa [FindSubmatch, h] using ih
    | some m =>
      right
      obtain ⟨w, g1, g2, g3, rfl, hg⟩ := matchHere_groups _ _ h
      exact ⟨w, g1, g2, g3, by simp [FindSubmatch, h], hg⟩

theorem FindSubmatch_versionString (a : Nat × Nat × Nat) :
    FindSubmatch (versionString a) =
      [decimal a.1 ++ '.' :: decimal a.2.1 ++ '.' :: decimal a.2.2,
        decimal a.1, decimal a.2.1, decimal a.2.2] := by
  obtain ⟨n1, d1, _⟩ := decimal_spec a.1
  obtain ⟨n2, d2, _⟩ := decimal_spec a.2.1
  obtain ⟨n3, d3, _⟩ := decimal_spec a.2.2
  have hm := matchHere_of_shape (decimal a.1) (decimal a.2.1) (decimal a.2.2) []
    ⟨n1, d1⟩ ⟨n2, d2⟩ ⟨n3, d3⟩ (by intro c hc; simp at hc)
  simp only [List.append_nil] at hm
  have hv : matchHere (versionString a) = none := by
    simp [versionString, matchHere, digitsPlus, show isDigit 'v' = false by decide]
  obtain ⟨c, rest, hcr⟩ := List.exists_cons_of_ne_nil n1
  unfold versionString at hv ⊢
  rw [FindSubmatch, hv]
  simp only []
  rw [hcr] at hm ⊢
  simp only [List.cons_append] at hm ⊢
  rw [FindSubmatch, hm]

theorem lessLoop_groups (intSize : Nat) (w1 a1 a2 a3 w2 b1 b2 b3 : GoString) :
    lessLoop intSize [w1, a1, a2, a3] [w2, b1, b2, b3] 1 3 =
      some (decide (lexLt (num intSize a1, num intSize a2, num intSize a3)
        (num intSize b1, num intSize b2, num intSize b3))) := by
  simp only [lessLoop, lexLt, List.getElem?_cons_succ, List.getElem?_cons_zero]
  split_ifs <;> simp <;> omega

theorem num_decimal (intSize : Nat) (hw : intSize = 32 ∨ intSize = 64) (n : Nat)
    (hn : (n : Int) ≤ maxInt intSize) : num intSize (decimal n) = (n : Int) := by
  obtain ⟨hne, hd, hv⟩ := decimal_spec n
  rw [num_digits intSize hw _ hne hd, groupValue, hv, if_pos hn]

/-! ## The claims about `less` -/

/-- C1 (counterexample): on a 64-bit platform `less("v9223372036854775808.0.0",
"v9223372036854775809.0.0")` is false although the first triple is smaller:
both major components overflow `int` and compare as the largest `int`. -/
theorem overflow_breaks_lexicographic_order :
    lexLt ((9223372036854775808, 0, 0) : Nat × Nat × Nat) (9223372036854775809, 0, 0) ∧
    versionString (9223372036854775808, 0, 0) = "v9223372036854775808.0.0".toList ∧
    versionString (9223372036854775809, 0, 0) = "v9223372036854775809.0.0".toList ∧
    less 64 (versionString (9223372036854775808, 0, 0))
      (versionString (9223372036854775809, 0, 0)) = some false := by
  refine ⟨by decide, by decide, by decide, by decide⟩

/-- C1 (amended): for all triples `a`, `b` of non-negative integers whose
components fit the platform's `int` (32 or 64 bits), `less("v"+a, "v"+b)`
returns, and returns true exactly when `a < b` in lexicographic order. -/
theorem less_versionString_iff (intSize : Nat) (hw : intSize = 32 ∨ intSize = 64)
    (a b : Nat × Nat × Nat) (ha : fitsInt intSize a) (hb : fitsInt intSize b) :
    less intSize (versionString a) (versionString b) = some (decide (lexLt a b)) := by
  unfold less
  simp only [FindSubmatch_versionString, lessLoop_groups]
  rw [num_decimal intSize hw _ ha.1, num_decimal intSize hw _ ha.2.1,
    num_decimal intSize hw _ ha.2.2, num_decimal intSize hw _ hb.1,
    num_decimal intSize hw _ hb.2.1, num_decimal intSize hw _ hb.2.2]
  congr 1
  rw [decide_eq_decide]
  simp only [lexLt, Nat.cast_lt, Nat.cast_inj]

/-- The amended C1 at `v1.2.0` and `v1.3.0` on a 64-bit platform. -/
theorem less_versionString_iff_witness :
    fitsInt 64 (1, 2, 0) ∧ fitsInt 64 (1, 3, 0) ∧
      less 64 (versionString (1, 2, 0)) (versionString (1, 3, 0)) = some true ∧
      less 64 (versionString (1, 3, 0)) (versionString (1, 2, 0)) = some false ∧
      less 64 (versionString (1, 2, 0)) (versionString (1, 2, 0)) = some false :=
  have h1 : fitsInt 64 (1, 2, 0) := by simp [fitsInt, maxInt]
  have h2 : fitsInt 64 (1, 3, 0) := by simp [fitsInt, maxInt]
  ⟨h1, h2, less_versionString_iff 64 (Or.inr rfl) (1, 2, 0) (1, 3, 0) h1 h2,
    less_versionString_iff 64 (Or.inr rfl) (1, 3, 0) (1, 2, 0) h2 h1,
    less_versionString_iff 64 (Or.inr rfl) (1, 2, 0) (1, 2, 0) h1 h1⟩

/-- C9 (counterexample): `less` panics when an input has no match (the nil
slice is indexed), and a component whose conversion fails is compared as the
largest `int`, not as 0: `less("v0.0.1", "v0.0.99999999999999999999")` is true
while `less("v0.0.1", "v0.0.0")` is false. -/
theorem malformed_version_panics_or_saturates :
    FindSubmatch "latest".toList = [] ∧
    less 64 "latest".toList "v1.0.0".toList = none ∧
    (Atoi 64 "99999999999999999999".toList).2 = some NumErr.ErrRange ∧
    less 64 "v0.0.1".toList "v0.0.99999999999999999999".toList = some true ∧
    less 64 "v0.0.1".toList "v0.0.0".toList = some false := by
  refine ⟨by decide, by decide, by decide, by decide, by decide⟩

/-- C9 (amended): when both inputs contain a match of `digits.digits.digits`,
`less` returns (no panic).  Each of the six matched components is a non-empty
run of digits, and its conversion by `strconv.Atoi` succeeds with the number
it denotes exactly when that number is at most the largest `int`; otherwise
the conversion fails with a range error (the only way it can fail) and gives
the largest `int`.  The result of `less` is the strict lexicographic
comparison of the two triples of these values: a component that fits counts
as its number, one that overflows counts as the largest `int`, not as 0. -/
theorem less_of_matches (intSize : Nat) (hw : intSize = 32 ∨ intSize = 64) (a b : GoString)
    (ha : FindSubmatch a ≠ []) (hb : FindSubmatch b ≠ []) :
    ∃ wa a1 a2 a3 wb b1 b2 b3,
      FindSubmatch a = [wa, a1, a2, a3] ∧ FindSubmatch b = [wb, b1, b2, b3] ∧
      (∀ g ∈ [a1, a2, a3, b1, b2, b3],
        g ≠ [] ∧ (∀ c ∈ g, isDigit c = true) ∧
        Atoi intSize g =
          if (decVal g : Int) ≤ maxInt intSize then ((decVal g : Int), none)
          else (maxInt intSize, some NumErr.ErrRange)) ∧
      less intSize a b = some (decide (lexLt
        (if (decVal a1 : Int) ≤ maxInt intSize then (decVal a1 : Int) else maxInt intSize,
          if (decVal a2 : Int) ≤ maxInt intSize then (decVal a2 : Int) else maxInt intSize,
          if (decVal a3 : Int) ≤ maxInt intSize then (decVal a3 : Int) else maxInt intSize)
        (if (decVal b1 : Int) ≤ maxInt intSize then (decVal b1 : Int) else maxInt intSize,
          if (decVal b2 : Int) ≤ maxInt intSize then (decVal b2 : Int) else maxInt intSize,
          if (decVal b3 : Int) ≤ maxInt intSize then (decVal b3 : Int) else maxInt intSize))) := by
  rcases FindSubmatch_groups a with h | ⟨wa, a1, a2, a3, hfa, ha1, ha2, ha3⟩
  · exact absurd h ha
  rcases FindSubmatch_groups b with h | ⟨wb, b1, b2, b3, hfb, hb1, hb2, hb3⟩
  · exact absurd h hb
  refine ⟨wa, a1, a2, a3, wb, b1, b2, b3, hfa, hfb, ?_, ?_⟩
  · have key : ∀ g, digitRun g →
        g ≠ [] ∧ (∀ c ∈ g, isDigit c = true) ∧
        Atoi intSize g =
          if (decVal g : Int) ≤ maxInt intSize then ((decVal g : Int), none)
          else (maxInt intSize, some NumErr.ErrRange) :=
      fun g hg => ⟨hg.1, hg.2, Atoi_digits intSize hw g hg.1 hg.2⟩
    intro g hg
    simp only [List.mem_cons, List.mem_singleton, List.not_mem_nil, or_false] at hg
    rcases hg with rfl | rfl | rfl | rfl | rfl | rfl
    · exact key _ ha1
    · exact key _ ha2
    · exact key _ ha3
    · exact key _ hb1
    · exact key _ hb2
    · exact key _ hb3
  · unfold less
    simp only [hfa, hfb, lessLoop_groups]
    rw [num_digits intSize hw a1 ha1.1 ha1.2, num_digits intSize hw a2 ha2.1 ha2.2,
      num_digits intSize hw a3 ha3.1 ha3.2, num_digits intSize hw b1 hb1.1 hb1.2,
      num_digits intSize hw b2 hb2.1 hb2.2, num_digits intSize hw b3 hb3.1 hb3.2]
    rfl

/-- The amended C9 at `cf v0.0.1` and `v0.0.99999999999999999999-rc`. -/
theorem less_of_matches_witness :
    FindSubmatch "cf v0.0.1".toList ≠ [] ∧
    FindSubmatch "v0.0.99999999999999999999-rc".toList ≠ [] ∧
    FindSubmatch "v0.0.99999999999999999999-rc".toList =
      ["0.0.99999999999999999999".toList, "0".toList, "0".toList,
        "99999999999999999999".toList] ∧
    less 64 "cf v0.0.1".toList "v0.0.99999999999999999999-rc".toList = some true ∧
    ∃ wa a1 a2 a3 wb b1 b2 b3,
      FindSubmatch "cf v0.0.1".toList = [wa, a1, a2, a3] ∧
      FindSubmatch "v0.0.99999999999999999999-rc".toList = [wb, b1, b2, b3] ∧
      (∀ g ∈ [a1, a2, a3, b1, b2, b3],
        g ≠ [] ∧ (∀ c ∈ g, isDigit c = true) ∧
        Atoi 64 g =
          if (decVal g : Int) ≤ maxInt 64 then ((decVal g : Int), none)
          else (maxInt 64, some NumErr.ErrRange)) ∧
      less 64 "cf v0.0.1".toList "v0.0.99999999999999999999-rc".toList = some (decide (lexLt
        (if (decVal a1 : Int) ≤ maxInt 64 then (decVal a1 : Int) else maxInt 64,
          if (decVal a2 : Int) ≤ maxInt 64 then (decVal a2 : Int) else maxInt 64,
          if (decVal a3 : Int) ≤ maxInt 64 then (decVal a3 : Int) else maxInt 64)
        (if (decVal b1 : Int) ≤ maxInt 64 then (decVal b1 : Int) else maxInt 64,
          if (decVal b2 : Int) ≤ maxInt 64 then (decVal b2 : Int) else maxInt 64,
          if (decVal b3 : Int) ≤ maxInt 64 then (decVal b3 : Int) else maxInt 64))) :=
  ⟨by decide, by decide, by decide, by decide,
    less_of_matches 64 (Or.inr rfl) "cf v0.0.1".toList "v0.0.99999999999999999999-rc".toList
      (by decide) (by decide)⟩

/-! ## Lemmas: the three paths of `upgrade` are distinct -/

theorem oldPath_ne (e : Path) : oldPath e ≠ e := by
  intro h
  have := congrArg (fun p => p.base.length) h
  simp [oldPath] at this
  omega

theorem newPath_ne (e : Path) : newPath e ≠ e := by
  intro h
  have := congrArg (fun p => p.base.length) h
  simp [newPath] at this
  omega

theorem oldPath_ne_newPath (e : Path) : oldPath e ≠ newPath e := by
  intro h
  have := congrArg (fun p => p.base) h
  simp [oldPath, newPath] at this

theorem ne_oldPath (e : Path) : e ≠ oldPath e := fun h => oldPath_ne e h.symm

theorem ne_newPath (e : Path) : e ≠ newPath e := fun h => newPath_ne e h.symm

theorem newPath_ne_oldPath (e : Path) : newPath e ≠ oldPath e :=
  fun h => oldPath_ne_newPath e h.symm

/-! ## The claims about `upgrade` -/

theorem overwrite_of_le (data old : Bytes) (h : old.length ≤ data.length) :
    overwrite data old = data := by
  simp [overwrite, List.drop_eq_nil_of_le h]

/-! ## Lemmas: what the body of `upgrade` does to the file system -/

theorem upgradeBody_frame (o : Outcomes) (url : GoString) (exePath : Path) (w : World)
    (p : Path) (hp1 : p ≠ newPath exePath) (hp2 : p ≠ exePath) :
    (upgradeBody o url exePath w).1.fs p = w.fs p := by
  obtain ⟨b1, d, b2, c, b3, b4, b5, b6⟩ := o
  cases d with
  | getError => simp [upgradeBody, World.log]
  | readError => simp [upgradeBody, World.log]
  | gzipError => simp [upgradeBody, World.log]
  | archive entries ending =>
    cases hf : findExecutable entries with
    | none => simp [upgradeBody, World.log, hf]
    | some entry =>
      cases hs : w.fs (newPath exePath) <;> cases b2 <;> cases c <;> cases b3 <;> cases b4 <;>
        simp [upgradeBody, osRename, osRemove, osOpenFile, ioCopy, World.log, hf, hs, hp1, hp2]

theorem upgradeBody_err (o : Outcomes) (url : GoString) (exePath : Path) (w : World)
    (h : (upgradeBody o url exePath w).2 ≠ none) :
    (upgradeBody o url exePath w).1.fs exePath = w.fs exePath := by
  obtain ⟨b1, d, b2, c, b3, b4, b5, b6⟩ := o
  cases d with
  | getError => simp [upgradeBody, World.log]
  | readError => simp [upgradeBody, World.log]
  | gzipError => simp [upgradeBody, World.log]
  | archive entries ending =>
    cases hf : findExecutable entries with
    | none => simp [upgradeBody, World.log, hf]
    | some entry =>
      revert h
      cases hs : w.fs (newPath exePath) <;> cases b2 <;> cases c <;> cases b3 <;> cases b4 <;>
        simp [upgradeBody, osRename, osRemove, osOpenFile, ioCopy, World.log, hf, hs,
          ne_newPath]

theorem upgradeBody_ok (o : Outcomes) (url : GoString) (exePath : Path) (w : World)
    (h : (upgradeBody o url exePath w).2 = none) :
    ∃ E, newExecutable o = some E ∧
      (upgradeBody o url exePath w).1.fs exePath =
        some (overwrite E ((w.fs (newPath exePath)).getD [])) ∧
      (upgradeBody o url exePath w).1.fs (newPath exePath) = none := by
  obtain ⟨b1, d, b2, c, b3, b4, b5, b6⟩ := o
  cases d with
  | getError => simp [upgradeBody, World.log] at h
  | readError => simp [upgradeBody, World.log] at h
  | gzipError => simp [upgradeBody, World.log] at h
  | archive entries ending =>
    cases hf : findExecutable entries with
    | none => simp [upgradeBody, World.log, hf] at h
    | some entry =>
      revert h
      cases hs : w.fs (newPath exePath) <;> cases b2 <;> cases c <;> cases b3 <;> cases b4 <;>
        simp [upgradeBody, osRename, osRemove, osOpenFile, ioCopy, World.log, hf, hs,
          ne_newPath, newPath_ne, newExecutable]

theorem osRename_backup (exePath : Path) (w : World) (orig : Bytes)
    (h0 : w.fs exePath = some orig) :
    ∃ w1, osRename true exePath (oldPath exePath) w = (w1, none) ∧
      w1.fs exePath = none ∧ w1.fs (oldPath exePath) = some orig ∧
      w1.fs (newPath exePath) = w.fs (newPath exePath) ∧
      w1.trace = w.trace ++ [Event.rename exePath (oldPath exePath)] := by
  refine ⟨_, by simp only [osRename, h0, if_true]; rfl, ?_, ?_, ?_, ?_⟩ <;>
    simp [World.log, ne_oldPath, newPath_ne_oldPath, newPath_ne]

theorem osRemove_frame (ok : Bool) (p q : Path) (w : World) (h : q ≠ p) :
    (osRemove ok p w).1.fs q = w.fs q := by
  unfold osRemove
  cases w.fs p <;> cases ok <;> simp [World.log, h]

theorem osRemove_ok (p : Path) (w : World) : (osRemove true p w).1.fs p = none := by
  unfold osRemove
  cases h : w.fs p <;> simp [World.log, h]

theorem newExecutable_some (o : Outcomes) (E : Bytes) (h : newExecutable o = some E) :
    ∃ entries ending entry, o.download = Download.archive entries ending ∧
      findExecutable entries = some entry ∧ entry.content = E := by
  unfold newExecutable at h
  cases hd : o.download with
  | getError => simp [hd] at h
  | readError => simp [hd] at h
  | gzipError => simp [hd] at h
  | archive entries ending =>
    simp only [hd, Option.map_eq_some'] at h
    obtain ⟨entry, hf, hc⟩ := h
    exact ⟨entries, ending, entry, rfl, hf, hc⟩

theorem upgrade_nil_backup (o : Outcomes) (url : GoString) (exePath : Path) (size : Nat)
    (w : World) (h : (upgrade o url exePath size w).2 = none) :
    o.backupRename = true ∧ ∃ orig, w.fs exePath = some orig := by
  revert h
  cases hb : o.backupRename <;> cases h0 : w.fs exePath <;>
    simp [upgrade, osRename, World.log, hb, h0]

/-- C2 (counterexample): the backup rename succeeds, the download fails and
the deferred rename back fails (its error is only printed): `upgrade` returns
the download error and no file is left at `exePath`.  And with every call
succeeding but a file `5 5 5 5 5` left at the staging path, `upgrade` returns
nil with `7 8 5 5 5` at `exePath`, not the new executable `7 8`. -/
theorem rollback_failure_leaves_no_executable :
    exampleWorld.fs exampleExe = some [1, 2, 3] ∧
    (upgrade { allSucceed Download.getError with rollbackRename := false }
      exampleURL exampleExe 0 exampleWorld).2 = some (Err.httpGet exampleURL) ∧
    (upgrade { allSucceed Download.getError with rollbackRename := false }
      exampleURL exampleExe 0 exampleWorld).1.fs exampleExe = none ∧
    exampleWorldStale.fs exampleExe = some [1, 2, 3] ∧
    newExecutable (allSucceed exampleArchive) = some [7, 8] ∧
    (upgrade (allSucceed exampleArchive) exampleURL exampleExe 0 exampleWorldStale).2 = none ∧
    (upgrade (allSucceed exampleArchive) exampleURL exampleExe 0 exampleWorldStale).1.fs
      exampleExe = some [7, 8, 5, 5, 5] := by
  refine ⟨by decide, by decide, by decide, by decide, by decide, by decide, by decide⟩

/-- C2 (amended): from every file system in which `exePath` holds a file, for
every archive and every outcome of every step: when `upgrade` returns an error
and the rename back to `exePath` does not fail, `exePath` holds exactly the
bytes it held before; when `upgrade` returns nil, the download gave a new
executable and, unless a longer file was already at the staging path,
`exePath` holds exactly its bytes. -/
theorem upgrade_exePath_complete (o : Outcomes) (url : GoString) (exePath : Path)
    (size : Nat) (w : World) (orig : Bytes) (h0 : w.fs exePath = some orig) :
    ((upgrade o url exePath size w).2 ≠ none → o.rollbackRename = true →
      (upgrade o url exePath size w).1.fs exePath = some orig) ∧
    ((upgrade o url exePath size w).2 = none →
      ∃ E, newExecutable o = some E ∧
        ((∀ c, w.fs (newPath exePath) = some c → c.length ≤ E.length) →
          (upgrade o url exePath size w).1.fs exePath = some E)) := by
  cases hb : o.backupRename
  · simp [upgrade, osRename, World.log, h0, hb]
  · obtain ⟨w1, hw1, hexe1, hold1, hnew1, _⟩ := osRename_backup exePath w orig h0
    have hframe := upgradeBody_frame o url exePath w1 (oldPath exePath)
      (oldPath_ne_newPath exePath) (oldPath_ne exePath)
    have herr := upgradeBody_err o url exePath w1
    have hok := upgradeBody_ok o url exePath w1
    have hu : upgrade o url exePath size w =
        (upgradeDeferred o exePath (upgradeBody o url exePath w1).2
          (upgradeBody o url exePath w1).1, (upgradeBody o url exePath w1).2) := by
      simp only [upgrade, hb, hw1]
    rw [hu]
    generalize upgradeBody o url exePath w1 = r at hframe herr hok ⊢
    obtain ⟨w2, err⟩ := r
    cases err with
    | some e =>
      simp only [hold1] at hframe
      simp +contextual [upgradeDeferred, osRename, World.log, hframe]
    | none =>
      obtain ⟨E, hE, hexe, _⟩ := hok rfl
      simp only [hnew1] at hexe
      refine ⟨by simp, fun _ => ⟨E, hE, fun hfit => ?_⟩⟩
      have hov : overwrite E ((w.fs (newPath exePath)).getD []) = E := by
        apply overwrite_of_le
        cases hs : w.fs (newPath exePath) with
        | none => simp
        | some c => simpa using hfit c hs
      rw [hov] at hexe
      simp only [upgradeDeferred]
      rw [osRemove_frame _ _ _ _ (ne_oldPath exePath)]
      exact hexe

/-- The amended C2 in the run of the examples in which `io.Copy` fails after one byte. -/
theorem upgrade_exePath_complete_witness :
    exampleWorld.fs exampleExe = some [1, 2, 3] ∧
    (upgrade { allSucceed exampleArchive with copy := some 1 } exampleURL exampleExe 0
      exampleWorld).2 ≠ none ∧
    (upgrade { allSucceed exampleArchive with copy := some 1 } exampleURL exampleExe 0
      exampleWorld).1.fs exampleExe = some [1, 2, 3] :=
  ⟨by decide, by decide,
    (upgrade_exePath_complete { allSucceed exampleArchive with copy := some 1 } exampleURL
      exampleExe 0 exampleWorld [1, 2, 3] (by decide)).1 (by decide) rfl⟩

/-- C3 (counterexample): with every call succeeding, a file `5 5 5 5 5` left
at the staging path is not truncated when it is opened, so `exePath` ends
with `7 8 5 5 5` instead of the new executable `7 8`; and when the deferred
removal of the backup fails (its error is only printed) `upgrade` still
returns nil with the backup on disk. -/
theorem nil_return_without_exact_swap :
    newExecutable (allSucceed exampleArchive) = some [7, 8] ∧
    (upgrade (allSucceed exampleArchive) exampleURL exampleExe 0 exampleWorldStale).2 = none ∧
    (upgrade (allSucceed exampleArchive) exampleURL exampleExe 0 exampleWorldStale).1.fs
      exampleExe = some [7, 8, 5, 5, 5] ∧
    (upgrade { allSucceed exampleArchive with removeBackup := false }
      exampleURL exampleExe 0 exampleWorld).2 = none ∧
    (upgrade { allSucceed exampleArchive with removeBackup := false }
      exampleURL exampleExe 0 exampleWorld).1.fs (oldPath exampleExe) = some [1, 2, 3] := by
  refine ⟨by decide, by decide, by decide, by decide, by decide⟩

/-- C3 (amended): whatever files are at the staging and backup paths
beforehand, when the archive's first entry named `cf...` has contents `E` and
`upgrade` returns nil: `exePath` holds exactly `E` unless a file longer than
`E` was already at the staging path, no file is left at the staging path, and
no file is left at the backup path unless its removal fails. -/
theorem upgrade_success (o : Outcomes) (url : GoString) (exePath : Path) (size : Nat)
    (w : World) (E : Bytes) (hE : newExecutable o = some E)
    (hret : (upgrade o url exePath size w).2 = none) :
    ((∀ c, w.fs (newPath exePath) = some c → c.length ≤ E.length) →
      (upgrade o url exePath size w).1.fs exePath = some E) ∧
    (upgrade o url exePath size w).1.fs (newPath exePath) = none ∧
    (o.removeBackup = true → (upgrade o url exePath size w).1.fs (oldPath exePath) = none) := by
  obtain ⟨hb, orig, h0⟩ := upgrade_nil_backup o url exePath size w hret
  obtain ⟨w1, hw1, hexe1, hold1, hnew1, _⟩ := osRename_backup exePath w orig h0
  have hok := upgradeBody_ok o url exePath w1
  have hu : upgrade o url exePath size w =
      (upgradeDeferred o exePath (upgradeBody o url exePath w1).2
        (upgradeBody o url exePath w1).1, (upgradeBody o url exePath w1).2) := by
    simp only [upgrade, hb, hw1]
  rw [hu] at hret ⊢
  generalize upgradeBody o url exePath w1 = r at hok hret ⊢
  obtain ⟨w2, err⟩ := r
  simp only at hret
  subst hret
  obtain ⟨E1, hE1, hexe, hnew⟩ := hok rfl
  rw [hE] at hE1
  obtain rfl : E = E1 := Option.some.inj hE1
  simp only [hnew1] at hexe
  simp only [upgradeDeferred]
  refine ⟨fun hfit => ?_, ?_, fun hrm => ?_⟩
  · have hov : overwrite E ((w.fs (newPath exePath)).getD []) = E := by
      apply overwrite_of_le
      cases hs : w.fs (newPath exePath) with
      | none => simp
      | some c => simpa using hfit c hs
    rw [osRemove_frame _ _ _ _ (ne_oldPath exePath), hexe, hov]
  · rw [osRemove_frame _ _ _ _ (newPath_ne_oldPath exePath)]
    exact hnew
  · rw [hrm]
    exact osRemove_ok _ _

/-- The amended C3 in the run of the examples in which every call succeeds. -/
theorem upgrade_success_witness :
    newExecutable (allSucceed exampleArchive) = some [7, 8] ∧
    (upgrade (allSucceed exampleArchive) exampleURL exampleExe 0 exampleWorld).2 = none ∧
    (upgrade (allSucceed exampleArchive) exampleURL exampleExe 0 exampleWorld).1.fs exampleExe
      = some [7, 8] ∧
    (upgrade (allSucceed exampleArchive) exampleURL exampleExe 0 exampleWorld).1.fs
      (oldPath exampleExe) = none :=
  have h := upgrade_success (allSucceed exampleArchive) exampleURL exampleExe 0 exampleWorld
    [7, 8] (by decide) (by decide)
  ⟨by decide, by decide, h.1 (by decide), h.2.2 rfl⟩

/-- C4 (counterexample): when `io.Copy` fails after one byte, `upgrade`
returns its error and renames the backup back, but the partly written staging
file stays on disk (it is removed only when the rename onto `exePath` fails);
and when the staging file cannot be opened and the rename back fails as well,
`exePath` is left without a file and the backup stays. -/
theorem staging_failure_leaves_files :
    (upgrade { allSucceed exampleArchive with copy := some 1 } exampleURL exampleExe 0
      exampleWorld).2 = some (Err.copy (newPath exampleExe)) ∧
    (upgrade { allSucceed exampleArchive with copy := some 1 } exampleURL exampleExe 0
      exampleWorld).1.fs (newPath exampleExe) = some [7] ∧
    (upgrade { allSucceed exampleArchive with openStaging := false, rollbackRename := false }
      exampleURL exampleExe 0 exampleWorld).1.fs exampleExe = none ∧
    (upgrade { allSucceed exampleArchive with openStaging := false, rollbackRename := false }
      exampleURL exampleExe 0 exampleWorld).1.fs (oldPath exampleExe) = some [1, 2, 3] := by
  refine ⟨by decide, by decide, by decide, by decide⟩

/-- C4 (amended): in every run in which the new executable cannot be written
to the staging path and the rename back to `exePath` does not fail: when the
staging file cannot be opened, `upgrade` returns the error of `os.OpenFile`,
makes no call after it but the rename back, and leaves the staging path as it
was; when the file is opened and copying into it fails, `upgrade` returns the
error of `io.Copy`; in both cases `exePath` holds exactly the original bytes
and no file is left at the backup path. -/
theorem upgrade_staging_failure (o : Outcomes) (url : GoString) (exePath : Path)
    (size : Nat) (w : World) (orig E : Bytes) (h0 : w.fs exePath = some orig)
    (hb : o.backupRename = true) (hE : newExecutable o = some E)
    (hfail : o.openStaging = false ∨ o.copy ≠ none) (hr : o.rollbackRename = true) :
    (o.openStaging = false →
      (upgrade o url exePath size w).2 = some (Err.openFile (newPath exePath)) ∧
      (upgrade o url exePath size w).1.trace =
        w.trace ++ [Event.rename exePath (oldPath exePath), Event.httpGet url,
          Event.openFile (newPath exePath), Event.rename (oldPath exePath) exePath] ∧
      (upgrade o url exePath size w).1.fs (newPath exePath) = w.fs (newPath exePath)) ∧
    (o.openStaging = true →
      (upgrade o url exePath size w).2 = some (Err.copy (newPath exePath)) ∧
      (upgrade o url exePath size w).1.trace =
        w.trace ++ [Event.rename exePath (oldPath exePath), Event.httpGet url,
          Event.openFile (newPath exePath), Event.copy (newPath exePath),
          Event.rename (oldPath exePath) exePath]) ∧
    (upgrade o url exePath size w).1.fs exePath = some orig ∧
    (upgrade o url exePath size w).1.fs (oldPath exePath) = none := by
  obtain ⟨entries, ending, entry, hd, hf, _⟩ := newExecutable_some o E hE
  cases ho : o.openStaging
  · simp [upgrade, upgradeBody, upgradeDeferred, osRename, osOpenFile, World.log, h0, hb, hd,
      hf, ho, hr, oldPath_ne, ne_oldPath, newPath_ne, newPath_ne_oldPath]
  · have hc : ∃ k, o.copy = some k := by
      rcases hfail with h | h
      · rw [ho] at h; cases h
      · exact Option.ne_none_iff_exists'.1 h
    obtain ⟨k, hk⟩ := hc
    cases hs : w.fs (newPath exePath) <;>
      simp [upgrade, upgradeBody, upgradeDeferred, osRename, osOpenFile, ioCopy, World.log,
        h0, hb, hd, hf, ho, hr, hk, hs, oldPath_ne, ne_oldPath, newPath_ne, ne_newPath,
        newPath_ne_oldPath, oldPath_ne_newPath]

/-- The amended C4 in the runs of the examples in which the staging file
cannot be opened, and in which `io.Copy` fails after one byte. -/
theorem upgrade_staging_failure_witness :
    exampleWorld.fs exampleExe = some [1, 2, 3] ∧
    (upgrade { allSucceed exampleArchive with openStaging := false } exampleURL exampleExe 0
      exampleWorld).2 = some (Err.openFile (newPath exampleExe)) ∧
    (upgrade { allSucceed exampleArchive with openStaging := false } exampleURL exampleExe 0
      exampleWorld).1.fs exampleExe = some [1, 2, 3] ∧
    (upgrade { allSucceed exampleArchive with openStaging := false } exampleURL exampleExe 0
      exampleWorld).1.fs (oldPath exampleExe) = none ∧
    (upgrade { allSucceed exampleArchive with copy := some 1 } exampleURL exampleExe 0
      exampleWorld).2 = some (Err.copy (newPath exampleExe)) ∧
    (upgrade { allSucceed exampleArchive with copy := some 1 } exampleURL exampleExe 0
      exampleWorld).1.fs exampleExe = some [1, 2, 3] :=
  have h := upgrade_staging_failure { allSucceed exampleArchive with openStaging := false }
    exampleURL exampleExe 0 exampleWorld [1, 2, 3] [7, 8] (by decide) rfl (by decide)
    (Or.inl rfl) rfl
  have h2 := upgrade_staging_failure { allSucceed exampleArchive with copy := some 1 }
    exampleURL exampleExe 0 exampleWorld [1, 2, 3] [7, 8] (by decide) rfl (by decide)
    (Or.inr (by decide)) rfl
  ⟨by decide, (h.1 rfl).1, h.2.2.1, h.2.2.2, (h2.2.1 rfl).1, h2.2.2.1⟩

/-- C5 (counterexample): the staging file is written and the rename onto
`exePath` fails; when the removal of the staging file fails too (its error is
only printed) the staging file stays on disk, and when the rename back fails
too no file is left at `exePath`. -/
theorem commit_failure_cleanup_can_fail :
    (upgrade { allSucceed exampleArchive with commitRename := false, removeStaging := false }
      exampleURL exampleExe 0 exampleWorld).2 =
        some (Err.rename (newPath exampleExe) exampleExe) ∧
    (upgrade { allSucceed exampleArchive with commitRename := false, removeStaging := false }
      exampleURL exampleExe 0 exampleWorld).1.fs (newPath exampleExe) = some [7, 8] ∧
    (upgrade { allSucceed exampleArchive with commitRename := false, rollbackRename := false }
      exampleURL exampleExe 0 exampleWorld).2 =
        some (Err.rename (newPath exampleExe) exampleExe) ∧
    (upgrade { allSucceed exampleArchive with commitRename := false, rollbackRename := false }
      exampleURL exampleExe 0 exampleWorld).1.fs exampleExe = none := by
  refine ⟨by decide, by decide, by decide, by decide⟩

/-- C5 (amended): in every run in which the staging file is written and the
rename of the staging path onto `exePath` fails, `upgrade` returns that
rename's error, then calls `os.Remove` on the staging file and `os.Rename`
from the backup path to `exePath`; the staging file is gone unless its removal
fails, and `exePath` holds exactly the original bytes (and the backup path no
file) unless the rename back fails. -/
theorem upgrade_commit_failure (o : Outcomes) (url : GoString) (exePath : Path)
    (size : Nat) (w : World) (orig E : Bytes) (h0 : w.fs exePath = some orig)
    (hb : o.backupRename = true) (hE : newExecutable o = some E)
    (ho : o.openStaging = true) (hc : o.copy = none) (hcr : o.commitRename = false) :
    (upgrade o url exePath size w).2 = some (Err.rename (newPath exePath) exePath) ∧
    (upgrade o url exePath size w).1.trace =
      w.trace ++ [Event.rename exePath (oldPath exePath), Event.httpGet url,
        Event.openFile (newPath exePath), Event.copy (newPath exePath),
        Event.rename (newPath exePath) exePath, Event.remove (newPath exePath),
        Event.rename (oldPath exePath) exePath] ∧
    (o.removeStaging = true → (upgrade o url exePath size w).1.fs (newPath exePath) = none) ∧
    (o.rollbackRename = true →
      (upgrade o url exePath size w).1.fs exePath = some orig ∧
      (upgrade o url exePath size w).1.fs (oldPath exePath) = none) := by
  obtain ⟨entries, ending, entry, hd, hf, _⟩ := newExecutable_some o E hE
  cases hs : w.fs (newPath exePath) <;> cases hrs : o.removeStaging <;>
    cases hrr : o.rollbackRename <;>
    simp [upgrade, upgradeBody, upgradeDeferred, osRename, osRemove, osOpenFile, ioCopy,
      World.log, h0, hb, hd, hf, ho, hc, hcr, hs, hrs, hrr, oldPath_ne, ne_oldPath, newPath_ne,
      ne_newPath, newPath_ne_oldPath, oldPath_ne_newPath]

/-- The amended C5 in the run of the examples in which only the rename onto `exePath` fails. -/
theorem upgrade_commit_failure_witness :
    exampleWorld.fs exampleExe = some [1, 2, 3] ∧
    (upgrade { allSucceed exampleArchive with commitRename := false } exampleURL exampleExe 0
      exampleWorld).2 = some (Err.rename (newPath exampleExe) exampleExe) ∧
    (upgrade { allSucceed exampleArchive with commitRename := false } exampleURL exampleExe 0
      exampleWorld).1.fs (newPath exampleExe) = none ∧
    (upgrade { allSucceed exampleArchive with commitRename := false } exampleURL exampleExe 0
      exampleWorld).1.fs exampleExe = some [1, 2, 3] :=
  have h := upgrade_commit_failure { allSucceed exampleArchive with commitRename := false }
    exampleURL exampleExe 0 exampleWorld [1, 2, 3] [7, 8] (by decide) rfl (by decide) rfl rfl rfl
  ⟨by decide, h.1, h.2.2.1 rfl, (h.2.2.2 rfl).1⟩

/-- C6 (counterexample): for a well-framed archive with no entry named
`cf...`, `upgrade` has renamed the executable to the backup path before the
download starts, so one of the swap's file operations is executed. -/
theorem not_found_still_renames_backup :
    newExecutable (allSucceed exampleArchiveNoExe) = none ∧
    (upgrade (allSucceed exampleArchiveNoExe) exampleURL exampleExe 0 exampleWorld).2 =
      some Err.EOF ∧
    (upgrade (allSucceed exampleArchiveNoExe) exampleURL exampleExe 0 exampleWorld).1.trace =
      [Event.rename exampleExe (oldPath exampleExe), Event.httpGet exampleURL,
        Event.rename (oldPath exampleExe) exampleExe] := by
  refine ⟨by decide, by decide, by decide⟩

/-- C6 (amended): for every downloaded, well-framed archive with no entry
whose name starts with `cf`, `upgrade` returns a non-nil error (`io.EOF`); the
staging file is never opened or written and nothing is renamed onto
`exePath` from the staging path, but the executable has been renamed to the
backup path before the download, and the deferred function renames it back:
these two renames and the download are all the calls made. -/
theorem upgrade_not_found (o : Outcomes) (url : GoString) (exePath : Path) (size : Nat)
    (w : World) (orig : Bytes) (entries : List Entry)
    (h0 : w.fs exePath = some orig) (hb : o.backupRename = true)
    (hd : o.download = Download.archive entries Err.EOF)
    (hn : findExecutable entries = none) :
    (upgrade o url exePath size w).2 = some Err.EOF ∧
    (upgrade o url exePath size w).1.trace =
      w.trace ++ [Event.rename exePath (oldPath exePath), Event.httpGet url,
        Event.rename (oldPath exePath) exePath] ∧
    (o.rollbackRename = true →
      ∀ p, p ≠ oldPath exePath → (upgrade o url exePath size w).1.fs p = w.fs p) := by
  cases hrr : o.rollbackRename <;>
    simp [upgrade, upgradeBody, upgradeDeferred, osRename, World.log, h0, hb, hd, hn, hrr,
      oldPath_ne, ne_oldPath]
  intro p hp
  by_cases hpe : p = exePath
  · simp [hpe, h0]
  · simp [hpe, hp]

/-- The amended C6 for the archive of the examples that holds no executable. -/
theorem upgrade_not_found_witness :
    exampleWorld.fs exampleExe = some [1, 2, 3] ∧
    (upgrade (allSucceed exampleArchiveNoExe) exampleURL exampleExe 0 exampleWorld).2 =
      some Err.EOF ∧
    (upgrade (allSucceed exampleArchiveNoExe) exampleURL exampleExe 0 exampleWorld).1.fs
      exampleExe = some [1, 2, 3] :=
  have h := upgrade_not_found (allSucceed exampleArchiveNoExe) exampleURL exampleExe 0
    exampleWorld [1, 2, 3] _ (by decide) rfl rfl (by decide)
  ⟨by decide, h.1, by rw [h.2.2 rfl exampleExe (by decide)]; decide⟩

/-! ## The claims about `getLatest` and `Upgrade` -/

theorem switchGOOS_eq (GOOS : GoString) :
    switchGOOS GOOS = if GOOS ∈ supportedOS then some GOOS else none := by
  simp only [switchGOOS, supportedOS, List.mem_cons, List.mem_singleton, List.not_mem_nil,
    or_false]
  split_ifs <;> simp_all

theorem switchGOARCH_eq (GOARCH : GoString) :
    switchGOARCH GOARCH = if GOARCH ∈ supportedArch then some GOARCH else none := by
  simp only [switchGOARCH, supportedArch, List.mem_cons, List.mem_singleton, List.not_mem_nil,
    or_false]
  split_ifs <;> simp_all

theorem getLatest_ok (GOOS GOARCH : GoString) (metadata : Metadata)
    (formatTime : GoString → GoString) (w w1 : World) (r : Latest)
    (hg : getLatest GOOS GOARCH metadata formatTime w = some (w1, r)) (hr : r.err = none) :
    w1 = w.log (Event.httpGet apiURL) ∧
    ∃ goos arch c V, switchGOOS GOOS = some goos ∧ switchGOARCH GOARCH = some arch ∧
      r.version = c :: V ∧
      r.url = "https://github.com/Dup4/cf-tool/releases/download/".toList ++ c :: V ++
        "/cf-tool_".toList ++ V ++ "_".toList ++ goos ++ "_".toList ++ arch ++
        ".tar.gz".toList := by
  unfold getLatest at hg
  cases h1 : switchGOOS GOOS with
  | none => simp [h1] at hg; rw [← hg.2] at hr; simp [Latest.zero] at hr
  | some goos =>
    cases h2 : switchGOARCH GOARCH with
    | none => simp [h1, h2] at hg; rw [← hg.2] at hr; simp [Latest.zero] at hr
    | some arch =>
      cases metadata with
      | getError => simp [h1, h2] at hg; rw [← hg.2] at hr; simp [Latest.zero] at hr
      | readError => simp [h1, h2] at hg; rw [← hg.2] at hr; simp [Latest.zero] at hr
      | body result =>
        simp only [h1, h2] at hg
        split at hg
        · split at hg
          · cases hg
          · split at hg
            · cases hg
            · simp only [Option.some.injEq, Prod.mk.injEq] at hg
              obtain ⟨hw, rfl⟩ := hg
              exact ⟨hw.symm, _, _, _, _, rfl, rfl, rfl, rfl⟩
        · cases hg

theorem getLatest_supported (GOOS GOARCH : GoString) (metadata : Metadata)
    (formatTime : GoString → GoString) (w w1 : World) (r : Latest)
    (e1 : switchGOOS GOOS = some GOOS) (e2 : switchGOARCH GOARCH = some GOARCH)
    (hg : getLatest GOOS GOARCH metadata formatTime w = some (w1, r)) :
    w1 = w.log (Event.httpGet apiURL) ∧ ∀ v, r.err ≠ some (Err.notSupport v) := by
  unfold getLatest at hg
  simp only [e1, e2] at hg
  cases metadata with
  | getError =>
    simp only [Option.some.injEq, Prod.mk.injEq] at hg
    obtain ⟨hw, rfl⟩ := hg
    exact ⟨hw.symm, by simp [Latest.zero]⟩
  | readError =>
    simp only [Option.some.injEq, Prod.mk.injEq] at hg
    obtain ⟨hw, rfl⟩ := hg
    exact ⟨hw.symm, by simp [Latest.zero]⟩
  | body result =>
    simp only at hg
    split at hg
    · split at hg
      · cases hg
      · split at hg
        · cases hg
        · simp only [Option.some.injEq, Prod.mk.injEq] at hg
          obtain ⟨hw, rfl⟩ := hg
          exact ⟨hw.symm, by simp⟩
    · cases hg

/-- C7: every (os, arch) with os in {darwin, linux, windows} and arch in
{386, amd64, arm64} is mapped by the two switches of `getLatest` to the same
two strings: `getLatest` goes on to the metadata request (it returns the
transport error when that fails, and never "not support"), and on metadata it
can read it returns, with a nil error, the URL whose asset name ends with
`_<os>_<arch>.tar.gz`.  For every other pair `getLatest` returns the non-nil
error "not support <os>" (or "not support <arch>" when only the arch is
outside its set) and makes no call: the world, its trace included, is
returned as it was. -/
theorem getLatest_platform (GOOS GOARCH : GoString) (formatTime : GoString → GoString)
    (w : World) :
    (GOOS ∈ supportedOS → GOARCH ∈ supportedArch →
      switchGOOS GOOS = some GOOS ∧ switchGOARCH GOARCH = some GOARCH ∧
      getLatest GOOS GOARCH Metadata.getError formatTime w =
        some (w.log (Event.httpGet apiURL), Latest.zero (some (Err.httpGet apiURL))) ∧
      (∀ (result : Release) (c : Char) (V note published : GoString) (size : Nat),
        result.tag_name = some (c :: V) → result.body = some note →
        result.published_at = some published →
        assetSize ("https://github.com/Dup4/cf-tool/releases/download/".toList ++ c :: V ++
          "/cf-tool_".toList ++ V ++ "_".toList ++ GOOS ++ "_".toList ++ GOARCH ++
          ".tar.gz".toList) 0 result.assets = some size →
        getLatest GOOS GOARCH (Metadata.body result) formatTime w =
          some (w.log (Event.httpGet apiURL),
            ⟨c :: V, note, formatTime published,
              "https://github.com/Dup4/cf-tool/releases/download/".toList ++ c :: V ++
                "/cf-tool_".toList ++ V ++ "_".toList ++ GOOS ++ "_".toList ++ GOARCH ++
                ".tar.gz".toList, size, none⟩)) ∧
      (∀ (metadata : Metadata) (w1 : World) (r : Latest),
        getLatest GOOS GOARCH metadata formatTime w = some (w1, r) →
        w1 = w.log (Event.httpGet apiURL) ∧ ∀ v, r.err ≠ some (Err.notSupport v))) ∧
    (GOOS ∉ supportedOS → ∀ metadata : Metadata,
      getLatest GOOS GOARCH metadata formatTime w =
        some (w, Latest.zero (some (Err.notSupport GOOS)))) ∧
    (GOOS ∈ supportedOS → GOARCH ∉ supportedArch → ∀ metadata : Metadata,
      getLatest GOOS GOARCH metadata formatTime w =
        some (w, Latest.zero (some (Err.notSupport GOARCH)))) := by
  refine ⟨fun h1 h2 => ?_, fun h1 metadata => ?_, fun h1 h2 metadata => ?_⟩
  · have e1 : switchGOOS GOOS = some GOOS := by simp [switchGOOS_eq, h1]
    have e2 : switchGOARCH GOARCH = some GOARCH := by simp [switchGOARCH_eq, h2]
    refine ⟨e1, e2, ?_, ?_, ?_⟩
    · simp only [getLatest, e1, e2]
    · intro result c V note published size ht hb hp hs
      simp only [getLatest, e1, e2, ht, hb, hp, hs]
    · intro metadata w1 r hg
      exact getLatest_supported _ _ _ _ _ _ _ e1 e2 hg
  · simp [getLatest, switchGOOS_eq, h1]
  · simp [getLatest, switchGOOS_eq, switchGOARCH_eq, h1, h2]

/-- C7 at linux/arm64, where `getLatest` returns the URL of the linux/arm64
asset, and at plan9/arm64 and linux/mips, where it returns "not support". -/
theorem getLatest_platform_witness :
    "linux".toList ∈ supportedOS ∧ "arm64".toList ∈ supportedArch ∧
    switchGOOS "linux".toList = some "linux".toList ∧
    switchGOARCH "arm64".toList = some "arm64".toList ∧
    getLatest "linux".toList "arm64".toList
      (Metadata.body ⟨some "v1.0.0".toList, some "notes".toList,
        some "2021-01-01T00:00:00Z".toList, []⟩) id exampleWorld =
      some (exampleWorld.log (Event.httpGet apiURL),
        ⟨"v1.0.0".toList, "notes".toList, "2021-01-01T00:00:00Z".toList,
          "https://github.com/Dup4/cf-tool/releases/download/v1.0.0/cf-tool_1.0.0_linux_arm64.tar.gz".toList,
          0, none⟩) ∧
    "plan9".toList ∉ supportedOS ∧
    getLatest "plan9".toList "arm64".toList Metadata.getError id exampleWorld =
      some (exampleWorld, Latest.zero (some (Err.notSupport "plan9".toList))) ∧
    "mips".toList ∉ supportedArch ∧
    getLatest "linux".toList "mips".toList Metadata.getError id exampleWorld =
      some (exampleWorld, Latest.zero (some (Err.notSupport "mips".toList))) :=
  have h1 := (getLatest_platform "linux".toList "arm64".toList id exampleWorld).1
    (by decide) (by decide)
  ⟨by decide, by decide, h1.1, h1.2.1,
    h1.2.2.2.1 ⟨some "v1.0.0".toList, some "notes".toList,
      some "2021-01-01T00:00:00Z".toList, []⟩ 'v' "1.0.0".toList "notes".toList
      "2021-01-01T00:00:00Z".toList 0 rfl rfl rfl rfl,
    by decide,
    (getLatest_platform "plan9".toList "arm64".toList id exampleWorld).2.1 (by decide)
      Metadata.getError,
    by decide,
    (getLatest_platform "linux".toList "mips".toList id exampleWorld).2.2 (by decide)
      (by decide) Metadata.getError⟩

/-- C8: when `getLatest` has resolved the latest version: if
`less(current, latest)` is false, `Upgrade` returns nil having made no call
but the metadata request (no prompt, no download, no file operation) and
leaving the file system as it was; if it is true and the user answers no,
`Upgrade` returns nil having made the metadata request and shown the prompt,
again with no download and the file system as it was. -/
theorem Upgrade_noop (env : Env) (w w1 : World) (r : Latest)
    (hg : getLatest env.GOOS env.GOARCH env.metadata env.formatTime w = some (w1, r))
    (hr : r.err = none) :
    (less env.intSize env.version r.version = some false →
      Upgrade env w = some (⟨w.fs, w.trace ++ [Event.httpGet apiURL]⟩, none)) ∧
    (less env.intSize env.version r.version = some true → env.answer = false →
      Upgrade env w = some (⟨w.fs, w.trace ++ [Event.httpGet apiURL, Event.yesOrNo]⟩, none)) := by
  have hw1 := (getLatest_ok _ _ _ _ _ _ _ hg hr).1
  subst hw1
  refine ⟨fun hl => ?_, fun hl ha => ?_⟩
  · simp [Upgrade, hg, hr, hl, World.log]
  · simp [Upgrade, hg, hr, hl, ha, World.log]

/-- C8 at `v1.2.0` against `v1.2.0`, and at `v1.2.0` against `v1.3.0` with the answer no. -/
theorem Upgrade_noop_witness :
    less 64 "v1.2.0".toList "v1.2.0".toList = some false ∧
    (Upgrade (exampleEnv "v1.2.0".toList "v1.2.0".toList true) exampleWorld =
      some (⟨exampleWorld.fs, exampleWorld.trace ++ [Event.httpGet apiURL]⟩, none)) ∧
    less 64 "v1.2.0".toList "v1.3.0".toList = some true ∧
    (Upgrade (exampleEnv "v1.2.0".toList "v1.3.0".toList false) exampleWorld =
      some (⟨exampleWorld.fs, exampleWorld.trace ++ [Event.httpGet apiURL, Event.yesOrNo]⟩,
        none)) :=
  ⟨by decide,
    (Upgrade_noop (exampleEnv "v1.2.0".toList "v1.2.0".toList true) exampleWorld _ _ rfl rfl).1
      (by decide),
    by decide,
    (Upgrade_noop (exampleEnv "v1.2.0".toList "v1.3.0".toList false) exampleWorld _ _ rfl
      rfl).2 (by decide) rfl⟩

/-- C10 (counterexample): for the release tag `1.2.3` the URL built by
`getLatest` holds `cf-tool_.2.3_`: `version[1:]` drops the first byte of the
tag whether or not it is `v`, while the tag with its `v` prefix removed is
`1.2.3`; and for the empty tag `version[1:]` panics. -/
theorem url_drops_first_byte_of_tag :
    (getLatest "linux".toList "amd64".toList (exampleRelease "1.2.3".toList []) id
      exampleWorld).map (fun x => x.2.url) =
      some "https://github.com/Dup4/cf-tool/releases/download/1.2.3/cf-tool_.2.3_linux_amd64.tar.gz".toList ∧
    specURL "1.2.3".toList "linux".toList "amd64".toList =
      "https://github.com/Dup4/cf-tool/releases/download/1.2.3/cf-tool_1.2.3_linux_amd64.tar.gz".toList ∧
    (getLatest "linux".toList "amd64".toList (exampleRelease [] []) id
      exampleWorld).map (fun x => x.2.url) = none := by
  refine ⟨by decide, by decide, by decide⟩

/-- C10 (amended): for every release tag that starts with `v` and every
supported (os, arch), whenever the metadata lets `getLatest` return (`body`
and `published_at` are strings and the asset found for the URL, if any, has a
numeric size), the download URL it returns is exactly
`https://github.com/Dup4/cf-tool/releases/download/<tag>/cf-tool_<V>_<os>_<arch>.tar.gz`
with `V` the tag without its `v`; it is built from the tag, os and arch alone,
whatever URL fields the metadata holds. -/
theorem getLatest_url (GOOS GOARCH : GoString) (hos : GOOS ∈ supportedOS)
    (harch : GOARCH ∈ supportedArch) (result : Release) (formatTime : GoString → GoString)
    (w : World) (V note published : GoString) (size : Nat)
    (ht : result.tag_name = some ('v' :: V)) (hb : result.body = some note)
    (hp : result.published_at = some published)
    (hs : assetSize (specURL ('v' :: V) GOOS GOARCH) 0 result.assets = some size) :
    getLatest GOOS GOARCH (Metadata.body result) formatTime w =
      some (w.log (Event.httpGet apiURL),
        ⟨'v' :: V, note, formatTime published, specURL ('v' :: V) GOOS GOARCH, size, none⟩) ∧
    specURL ('v' :: V) GOOS GOARCH =
      "https://github.com/Dup4/cf-tool/releases/download/".toList ++ ('v' :: V) ++
        "/cf-tool_".toList ++ V ++ "_".toList ++ GOOS ++ "_".toList ++ GOARCH ++
        ".tar.gz".toList := by
  have hurl : specURL ('v' :: V) GOOS GOARCH =
      "https://github.com/Dup4/cf-tool/releases/download/".toList ++ ('v' :: V) ++
        "/cf-tool_".toList ++ V ++ "_".toList ++ GOOS ++ "_".toList ++ GOARCH ++
        ".tar.gz".toList := by
    simp [specURL, withoutV]
  refine ⟨?_, hurl⟩
  rw [hurl] at hs ⊢
  simp only [getLatest, switchGOOS_eq, switchGOARCH_eq, hos, harch, if_true, ht, hb, hp, hs]

/-- The amended C10 at the tag `v1.0.0` on linux/amd64, with two assets in the metadata. -/
theorem getLatest_url_witness :
    "linux".toList ∈ supportedOS ∧ "amd64".toList ∈ supportedArch ∧
    (getLatest "linux".toList "amd64".toList
      (exampleRelease "v1.0.0".toList [⟨some "https://example.org/other".toList, some 5⟩,
        ⟨some exampleURL, some 4096⟩]) id exampleWorld).map (fun x => (x.2.url, x.2.size)) =
      some (exampleURL, 4096) :=
  ⟨by decide, by decide,
    congrArg (Option.map fun x => (x.2.url, x.2.size))
      (getLatest_url "linux".toList "amd64".toList (by decide) (by decide)
        ⟨some "v1.0.0".toList, some "notes".toList, some "2021-01-01T00:00:00Z".toList,
          [⟨some "https://example.org/other".toList, some 5⟩, ⟨some exampleURL, some 4096⟩]⟩
        id exampleWorld "1.0.0".toList "notes".toList "2021-01-01T00:00:00Z".toList 4096
        rfl rfl rfl (by decide)).1⟩

end CfTool
